import Mathlib

/-!
Verification of the descriptive-statistics pipeline in `program_10.py`
(Environmental-Informatics assignment 10 solution).

The embedding below translates the numeric core of the source into Lean:

* A pandas `Discharge` cell is either a rational number or the missing
  marker `NaN`; we model it as `Val` (`Val.nan` / `Val.num q`).
* pandas reductions (`sum`, `mean`, `min`, `median`, `count`) skip `NaN`
  entries; elementwise arithmetic (`+`, `-`, `abs`, `*`) propagates `NaN`;
  elementwise comparisons (`>`, `<`, `<=`) are `false` whenever a `NaN` is
  involved.  Division returns `NaN` when either operand is `NaN` or the
  denominator is zero; the zero-denominator case reached by the source is
  `0/0`, which is `NaN` in numpy, matching this model.
* A time series (`DataDF` indexed by `Date`) is a list of
  (date, discharge) pairs, sorted ascending by date per the data model.
* Dates are (year, month, day) triples; `pd.DateOffset(days=1)` is
  `nextDay` / `prevDay`, and `pd.DateOffset(days=365)` is `addDays _ 365`.
-/

/-- A discharge cell: a finite rational value or the missing marker NaN. -/
inductive Val where
| nan : Val
| num : ℚ → Val
deriving DecidableEq

/-- Elementwise addition; NaN propagates (numpy semantics). -/
def vadd : Val → Val → Val
| Val.num a, Val.num b => Val.num (a + b)
| _, _ => Val.nan

/-- Elementwise subtraction; NaN propagates. -/
def vsub : Val → Val → Val
| Val.num a, Val.num b => Val.num (a - b)
| _, _ => Val.nan

/-- Elementwise multiplication; NaN propagates. -/
def vmul : Val → Val → Val
| Val.num a, Val.num b => Val.num (a * b)
| _, _ => Val.nan

/-- `np.abs`; NaN propagates. -/
def vabs : Val → Val
| Val.nan => Val.nan
| Val.num a => Val.num |a|

/-- Division: NaN if either operand is NaN or the denominator is zero
(the denominator-zero case exercised by the source is `0/0`, which numpy
evaluates to NaN). -/
def vdiv : Val → Val → Val
| Val.num a, Val.num b => if b = 0 then Val.nan else Val.num (a / b)
| _, _ => Val.nan

/-- Elementwise `<`: false whenever a NaN is involved (IEEE comparison). -/
def vltB : Val → Val → Bool
| Val.num a, Val.num b => decide (a < b)
| _, _ => false

/-- Elementwise `>`: false whenever a NaN is involved. -/
def vgtB : Val → Val → Bool
| Val.num a, Val.num b => decide (b < a)
| _, _ => false

/-- Elementwise `<=`: false whenever a NaN is involved. -/
def vleB : Val → Val → Bool
| Val.num a, Val.num b => decide (a ≤ b)
| _, _ => false

/-- `pd.isna` on one cell. -/
def isnaB : Val → Bool
| Val.nan => true
| Val.num _ => false

/-- The non-missing values of a series, in order (what pandas reductions
with `skipna=True` operate on). -/
def validValues : List Val → List ℚ
| [] => []
| Val.nan :: t => validValues t
| Val.num q :: t => q :: validValues t

/-- `Series.count()`: number of non-missing entries. -/
def validCount (l : List Val) : Nat := (validValues l).length

/-- `Series.sum()`: sum of the non-missing entries (0 for an all-NaN or
empty series, as in pandas). -/
def nansum (l : List Val) : ℚ := (validValues l).sum

/-- `Series.mean()`: mean of the non-missing entries, NaN if there are
none. -/
def nanmean (l : List Val) : Val :=
  if validCount l = 0 then Val.nan else Val.num (nansum l / (validCount l : ℚ))

/-- Accumulator step of a NaN-skipping minimum. -/
def vminAcc : Val → Val → Val
| Val.nan, v => v
| v, Val.nan => v
| Val.num a, Val.num b => Val.num (min a b)

/-- `Series.min()`: minimum of the non-missing entries, NaN if there are
none. -/
def nanmin (l : List Val) : Val := l.foldl vminAcc Val.nan

/-- Insertion into a sorted list of rationals (helper for the median). -/
def insertSorted (q : ℚ) : List ℚ → List ℚ
| [] => [q]
| x :: t => if q ≤ x then q :: x :: t else x :: insertSorted q t

/-- Insertion sort on rationals (helper for the median). -/
def sortQ : List ℚ → List ℚ
| [] => []
| x :: t => insertSorted x (sortQ t)

/-- `Series.median()`: median of the non-missing entries (midpoint of the
two central order statistics for an even count), NaN if there are none. -/
def nanmedian (l : List Val) : Val :=
  let vs := sortQ (validValues l)
  let n := vs.length
  if n = 0 then Val.nan
  else if n % 2 = 1 then Val.num (vs.getD (n / 2) 0)
  else Val.num ((vs.getD (n / 2 - 1) 0 + vs.getD (n / 2) 0) / 2)

/-- `CalcTqmean` from the source.  Note `Qvalues.dropna()` in the source is
not in place and its result is discarded, so the series is used as given:
`qMean` is the NaN-skipping mean, `totalDataPoints` the non-missing count,
and `Qvalues > qMean` selects entries strictly greater than the mean
(comparisons with NaN are false). -/
def CalcTqmean (Qvalues : List Val) : Val :=
  vdiv (Val.num ((Qvalues.countP (fun v => vgtB v (nanmean Qvalues)) : ℚ)))
    (Val.num ((validCount Qvalues : ℚ)))

/-- The list of `np.abs (Qvalues[i] - Qvalues[i+1])` for consecutive
positions `i`, exactly the terms the source loop accumulates. -/
def pathDeltas : List Val → List Val
| a :: b :: t => vabs (vsub a b) :: pathDeltas (b :: t)
| _ => []

/-- `CalcRBindex` from the source.  `Qvalues.dropna()` is discarded, so the
day-to-day differences run over the original ordered sequence, NaN
included; `totalDischarge` is the NaN-skipping sum. -/
def CalcRBindex (Qvalues : List Val) : Val :=
  vdiv ((pathDeltas Qvalues).foldl vadd (Val.num 0)) (Val.num (nansum Qvalues))

/-- `Series.rolling(window=7).mean()`: trailing 7-entry windows, NaN for
the first six positions (`min_periods` defaults to the window size) and
for any window containing a NaN (rolling mean does not skip NaN). -/
def rollingMean7 (Q : List Val) : List Val :=
  (List.range Q.length).map (fun i =>
    if i + 1 < 7 then Val.nan
    else if ((Q.drop (i + 1 - 7)).take 7).any isnaB then Val.nan
    else Val.num (nansum ((Q.drop (i + 1 - 7)).take 7) / 7))

/-- `Calc7Q` from the source: minimum (NaN-skipping) of the 7-day moving
average; `Qvalues.dropna()` is discarded. -/
def Calc7Q (Qvalues : List Val) : Val := nanmin (rollingMean7 Qvalues)

/-- `CalcExceed3TimesMedian` from the source: count of entries strictly
greater than three times the NaN-skipping median (entries failing the
comparison, NaN included, are not selected, and `.count()` of the
selection equals the number selected). -/
def CalcExceed3TimesMedian (Qvalues : List Val) : Nat :=
  Qvalues.countP (fun v => vgtB v (vmul (Val.num 3) (nanmedian Qvalues)))

/-- A calendar date (year, month, day). -/
structure Date where
  year : Nat
  month : Nat
  day : Nat
deriving DecidableEq

/-- Gregorian leap-year rule. -/
def isLeap (y : Nat) : Bool := (y % 4 == 0 && y % 100 != 0) || y % 400 == 0

/-- Number of days in a month of a given year. -/
def daysInMonth (y m : Nat) : Nat :=
  if m = 2 then (if isLeap y then 29 else 28)
  else if m = 4 ∨ m = 6 ∨ m = 9 ∨ m = 11 then 30
  else 31

/-- `date + pd.DateOffset(days=1)`. -/
def nextDay (d : Date) : Date :=
  if d.day < daysInMonth d.year d.month then ⟨d.year, d.month, d.day + 1⟩
  else if d.month < 12 then ⟨d.year, d.month + 1, 1⟩
  else ⟨d.year + 1, 1, 1⟩

/-- `date - pd.DateOffset(days=1)`. -/
def prevDay (d : Date) : Date :=
  if 1 < d.day then ⟨d.year, d.month, d.day - 1⟩
  else if 1 < d.month then ⟨d.year, d.month - 1, daysInMonth d.year (d.month - 1)⟩
  else ⟨d.year - 1, 12, 31⟩

/-- `date + pd.DateOffset(days=n)`. -/
def addDays : Date → Nat → Date
| d, 0 => d
| d, n + 1 => addDays (nextDay d) n

/-- Chronological order on dates (lexicographic on year, month, day). -/
def dateLE (a b : Date) : Bool :=
  decide (a.year < b.year) ||
    (decide (a.year = b.year) && (decide (a.month < b.month) ||
      (decide (a.month = b.month) && decide (a.day ≤ b.day))))

/-- Number of leap years in `1..y`. -/
def leapsBefore (y : Nat) : Nat := y / 4 - y / 100 + y / 400

/-- Ordinal day number of a date (days since the proleptic epoch). -/
def dateOrd (d : Date) : Nat :=
  365 * (d.year - 1) + leapsBefore (d.year - 1) +
    ((List.range (d.month - 1)).map (fun k => daysInMonth d.year (k + 1))).sum + d.day

/-- Number of days in the inclusive window from `a` to `b`. -/
def spanDays (a b : Date) : Nat := dateOrd b - dateOrd a + 1

/-- The water-year period-end computation of `GetAnnualStatistics`: step
365 days forward from the period start, and if the result lands in
October, subtract one day to realign to September 30. -/
def wyNextEnd (startDate : Date) : Date :=
  if (addDays startDate 365).month = 10 then prevDay (addDays startDate 365)
  else addDays startDate 365

/-- Start year of the `AS-OCT` annual bin containing a date: October 1 of
`d.year` if the month is October or later, else of the previous year. -/
def waterYearLabel (d : Date) : Nat := if 10 ≤ d.month then d.year else d.year - 1

/-- Row count of the water-year table: `resample('AS-OCT')` creates one
bin per October-anchored year covering the span from the first to the
last observation, and every per-metric list appended in the loop has the
same length as that bin index. -/
def numWYRows (first last : Date) : Nat :=
  waterYearLabel last - waterYearLabel first + 1

/-- `ClipData` from the source: `DataDF[startDate:endDate]` keeps the rows
whose date lies in the inclusive range (label slicing on a sorted
DatetimeIndex), and the missing count is recomputed on the clipped rows.
No code path raises on an empty result. -/
def ClipData (DataDF : List (Date × Val)) (startDate endDate : Date) :
    List (Date × Val) × Nat :=
  ((DataDF.filter (fun p => dateLE startDate p.1 && dateLE p.1 endDate)),
    (DataDF.filter (fun p => dateLE startDate p.1 && dateLE p.1 endDate)).countP
      (fun p => isnaB p.2))

/-- The cleaning step of `ReadData` (after the file parse, which is out of
scope): set `Discharge < 0` to NaN (comparison with NaN is false, so
already-missing cells are untouched), then count all missing cells. -/
def ReadDataCleanStep (DataDF : List (Date × Val)) : List (Date × Val) × Nat :=
  ((DataDF.map (fun p => (p.1, if vltB p.2 (Val.num 0) then Val.nan else p.2))),
    (DataDF.map (fun p => (p.1, if vltB p.2 (Val.num 0) then Val.nan else p.2))).countP
      (fun p => isnaB p.2))

/-- Column `j` mean over a list of rows, skipping NaN (`DataFrame.mean`),
NaN for an empty selection. -/
def colMean (rows : List (List Val)) (j : Nat) : Val :=
  nanmean (rows.map (fun r => r.getD j Val.nan))

/-- Per-column means of a list of rows with `ncols` columns. -/
def colMeans (rows : List (List Val)) (ncols : Nat) : List Val :=
  (List.range ncols).map (colMean rows)

/-- `GetMonthlyAverages` from the source: for each `i` in `0..11` select
the rows whose index month equals `i+1`, take their per-column mean, and
assemble the twelve averaged rows indexed `1..12` (the dict-of-columns
DataFrame is built and transposed, leaving rows keyed `1..12`). -/
def GetMonthlyAverages (MoDataDF : List (Date × List Val)) (ncols : Nat) :
    List (Nat × List Val) :=
  (List.range 12).map (fun i =>
    (i + 1, colMeans ((MoDataDF.filter (fun p => p.1.month == i + 1)).map Prod.snd) ncols))

set_option maxRecDepth 2000

/-! Helper lemmas about the embedding. -/

theorem addDays_add (d : Date) (m n : Nat) :
    addDays d (m + n) = addDays (addDays d m) n := by
  induction m generalizing d with
  | zero => rw [Nat.zero_add]; rfl
  | succ k ih =>
    have h1 : k + 1 + n = (k + n) + 1 := by omega
    rw [h1]
    show addDays (nextDay d) (k + n) = addDays (addDays (nextDay d) k) n
    exact ih (nextDay d)

theorem addDays_365_oct1_2019 : addDays ⟨2019, 10, 1⟩ 365 = (⟨2020, 9, 30⟩ : Date) := by
  have h1 : addDays ⟨2019, 10, 1⟩ 100 = (⟨2020, 1, 9⟩ : Date) := by decide
  have h2 : addDays ⟨2020, 1, 9⟩ 100 = (⟨2020, 4, 18⟩ : Date) := by decide
  have h3 : addDays ⟨2020, 4, 18⟩ 100 = (⟨2020, 7, 27⟩ : Date) := by decide
  have h4 : addDays ⟨2020, 7, 27⟩ 65 = (⟨2020, 9, 30⟩ : Date) := by decide
  have e : (365 : Nat) = 100 + 100 + 100 + 65 := rfl
  rw [e, addDays_add, addDays_add, addDays_add, h1, h2, h3, h4]

theorem addDays_365_oct1_2017 : addDays ⟨2017, 10, 1⟩ 365 = (⟨2018, 10, 1⟩ : Date) := by
  have h1 : addDays ⟨2017, 10, 1⟩ 100 = (⟨2018, 1, 9⟩ : Date) := by decide
  have h2 : addDays ⟨2018, 1, 9⟩ 100 = (⟨2018, 4, 19⟩ : Date) := by decide
  have h3 : addDays ⟨2018, 4, 19⟩ 100 = (⟨2018, 7, 28⟩ : Date) := by decide
  have h4 : addDays ⟨2018, 7, 28⟩ 65 = (⟨2018, 10, 1⟩ : Date) := by decide
  have e : (365 : Nat) = 100 + 100 + 100 + 65 := rfl
  rw [e, addDays_add, addDays_add, addDays_add, h1, h2, h3, h4]

/-- C1: water-year partitioning steps each period end forward by exactly 365
days from the period start and, when the computed end lands on October 1,
subtracts one day to realign to September 30; a series spanning exactly N
full water years (October 1 of year Y0 through September 30 of year Y0+N)
yields exactly N annual rows; and the water year from October 1 2019 to
September 30 2020 is a 366-day window. -/
theorem c1_water_year_partition (startDate : Date) (y Y0 N : Nat) (hN : 1 ≤ N)
    (h365 : addDays startDate 365 = ⟨y, 10, 1⟩) :
    wyNextEnd startDate = ⟨y, 9, 30⟩ ∧
    numWYRows ⟨Y0, 10, 1⟩ ⟨Y0 + N, 9, 30⟩ = N ∧
    wyNextEnd ⟨2019, 10, 1⟩ = ⟨2020, 9, 30⟩ ∧
    spanDays ⟨2019, 10, 1⟩ ⟨2020, 9, 30⟩ = 366 := by
  refine ⟨?_, ?_, ?_, by decide⟩
  · unfold wyNextEnd
    rw [h365]
    simp [prevDay, daysInMonth, isLeap]
  · simp only [numWYRows, waterYearLabel]
    norm_num
    omega
  · unfold wyNextEnd
    rw [addDays_365_oct1_2019]
    decide

theorem c1_witness :
    addDays ⟨2017, 10, 1⟩ 365 = (⟨2018, 10, 1⟩ : Date) ∧
    (wyNextEnd ⟨2017, 10, 1⟩ = (⟨2018, 9, 30⟩ : Date) ∧
      numWYRows ⟨1969, 10, 1⟩ ⟨1969 + 50, 9, 30⟩ = 50 ∧
      wyNextEnd ⟨2019, 10, 1⟩ = (⟨2020, 9, 30⟩ : Date) ∧
      spanDays ⟨2019, 10, 1⟩ ⟨2020, 9, 30⟩ = 366) :=
  ⟨addDays_365_oct1_2017,
    c1_water_year_partition ⟨2017, 10, 1⟩ 2018 1969 50 (by decide) addDays_365_oct1_2017⟩

theorem vadd_nan_left (v : Val) : vadd Val.nan v = Val.nan := by cases v <;> rfl

theorem vadd_nan_right (v : Val) : vadd v Val.nan = Val.nan := by cases v <;> rfl

theorem foldl_vadd_nan_acc (l : List Val) : l.foldl vadd Val.nan = Val.nan := by
  induction l with
  | nil => rfl
  | cons x t ih =>
    show List.foldl vadd (vadd Val.nan x) t = Val.nan
    rw [vadd_nan_left]
    exact ih

theorem foldl_vadd_of_mem_nan (l : List Val) (acc : Val) (h : Val.nan ∈ l) :
    l.foldl vadd acc = Val.nan := by
  induction l generalizing acc with
  | nil => cases h
  | cons x t ih =>
    rcases List.mem_cons.mp h with hx | ht
    · subst hx
      show List.foldl vadd (vadd acc Val.nan) t = Val.nan
      rw [vadd_nan_right]
      exact foldl_vadd_nan_acc t
    · exact ih _ ht

theorem nan_mem_pathDeltas (l : List Val) (h : Val.nan ∈ l) (hlen : 2 ≤ l.length) :
    Val.nan ∈ pathDeltas l := by
  induction l with
  | nil => cases h
  | cons a t ih =>
    cases t with
    | nil => simp at hlen
    | cons b t' =>
      rcases List.mem_cons.mp h with ha | hbt
      · subst ha
        have hh : pathDeltas (Val.nan :: b :: t') = Val.nan :: pathDeltas (b :: t') := by
          cases b <;> rfl
        rw [hh]
        exact List.mem_cons_self _ _
      · cases t' with
        | nil =>
          have hb : b = Val.nan := by
            have := by simpa using hbt
            exact this.symm
          subst hb
          have hh : pathDeltas [a, Val.nan] = [Val.nan] := by cases a <;> rfl
          rw [hh]
          exact List.mem_cons_self _ _
        | cons c t'' =>
          have ihm := ih hbt (by simp)
          exact List.mem_cons_of_mem _ ihm

/-- C2: the R-B index day-to-day differencing runs over the original ordered
sequence (the source discards the result of `dropna`); any pair touching the
missing marker contributes NaN to the path-length sum, and a period whose
sequence contains a missing value gets a NaN R-B index. -/
theorem c2_rbindex_nan_propagation (Qvalues : List Val) (v : Val)
    (h : Val.nan ∈ Qvalues) :
    vabs (vsub Val.nan v) = Val.nan ∧ vabs (vsub v Val.nan) = Val.nan ∧
    CalcRBindex Qvalues = Val.nan := by
  refine ⟨by cases v <;> rfl, by cases v <;> rfl, ?_⟩
  by_cases hlen : 2 ≤ Qvalues.length
  · have hd := nan_mem_pathDeltas Qvalues h hlen
    unfold CalcRBindex
    rw [foldl_vadd_of_mem_nan _ _ hd]
    rfl
  · cases Qvalues with
    | nil => cases h
    | cons a t =>
      cases t with
      | nil =>
        have ha : a = Val.nan := by
          have := by simpa using h
          exact this.symm
        subst ha
        decide
      | cons b t' =>
        exfalso
        simp at hlen

theorem c2_witness :
    vabs (vsub Val.nan (Val.num 5)) = Val.nan ∧
    vabs (vsub (Val.num 5) Val.nan) = Val.nan ∧
    CalcRBindex [Val.num 1, Val.nan, Val.num 2] = Val.nan :=
  c2_rbindex_nan_propagation [Val.num 1, Val.nan, Val.num 2] (Val.num 5) (by decide)

/-- Concrete two-day series used for the C4 counterexample and witness. -/
def c4ex : List (Date × Val) := [(⟨2000, 1, 1⟩, Val.num 5), (⟨2000, 1, 2⟩, Val.num 6)]

/-- C4 counterexample: clipping a nonempty series to a range holding no
observations returns an empty table and missing count 0; no failure is
signalled to the caller. -/
theorem c4_counterexample : ClipData c4ex ⟨2010, 1, 1⟩ ⟨2010, 12, 31⟩ = ([], 0) := by
  decide

/-- C4 (amended): `ClipData` on a date range containing no observations
silently returns the empty table with missing count 0. -/
theorem c4_clip_empty_range (DataDF : List (Date × Val)) (startDate endDate : Date)
    (h : ∀ p ∈ DataDF, ¬(dateLE startDate p.1 = true ∧ dateLE p.1 endDate = true)) :
    ClipData DataDF startDate endDate = ([], 0) := by
  have hf : DataDF.filter (fun p => dateLE startDate p.1 && dateLE p.1 endDate) = [] := by
    rw [List.filter_eq_nil_iff]
    intro p hp
    rw [Bool.and_eq_true]
    exact h p hp
  unfold ClipData
  rw [hf]
  rfl

theorem c4_witness : ClipData c4ex ⟨1990, 1, 1⟩ ⟨1990, 12, 31⟩ = ([], 0) :=
  c4_clip_empty_range c4ex ⟨1990, 1, 1⟩ ⟨1990, 12, 31⟩ (by decide)

theorem validValues_eq_nil (Qvalues : List Val) (h : validCount Qvalues = 0) :
    validValues Qvalues = [] :=
  List.length_eq_zero.mp h

theorem vgtB_nan_right (v : Val) : vgtB v Val.nan = false := by cases v <;> rfl

/-- Concrete all-missing period for the C5 counterexample. -/
def c5ex : List Val := [Val.nan, Val.nan]

/-- C5 counterexample: an all-missing period has zero valid observations,
yet the 3x-median exceedance metric returns the count 0, a definite
number, not NaN. -/
theorem c5_counterexample : validCount c5ex = 0 ∧ CalcExceed3TimesMedian c5ex = 0 := by
  decide

/-- C5 (amended): on a period with zero valid observations `CalcTqmean`
yields NaN (0/0), while `CalcExceed3TimesMedian` yields the count 0
(every comparison against the NaN median is false); both are soft
outcomes, not failures. -/
theorem c5_zero_valid_metrics (Qvalues : List Val) (h : validCount Qvalues = 0) :
    CalcTqmean Qvalues = Val.nan ∧ CalcExceed3TimesMedian Qvalues = 0 := by
  have hv : validValues Qvalues = [] := validValues_eq_nil Qvalues h
  have hmean : nanmean Qvalues = Val.nan := by
    unfold nanmean
    rw [if_pos h]
  constructor
  · unfold CalcTqmean
    rw [hmean]
    have hc : Qvalues.countP (fun v => vgtB v Val.nan) = 0 := by
      rw [List.countP_eq_zero]
      intro v _
      rw [vgtB_nan_right]
      exact Bool.false_ne_true
    rw [hc, h]
    simp [vdiv]
  · unfold CalcExceed3TimesMedian
    have hmed : nanmedian Qvalues = Val.nan := by
      unfold nanmedian
      rw [hv]
      rfl
    rw [hmed]
    rw [List.countP_eq_zero]
    intro v _
    rw [show vgtB v (vmul (Val.num 3) Val.nan) = false from by cases v <;> rfl]
    exact Bool.false_ne_true

theorem c5_witness :
    validCount [Val.nan] = 0 ∧
    (CalcTqmean [Val.nan] = Val.nan ∧ CalcExceed3TimesMedian [Val.nan] = 0) :=
  ⟨by decide, c5_zero_valid_metrics [Val.nan] (by decide)⟩

/-- C10: the cleaning step never shrinks the index set (same dates, in
order), replaces exactly the below-threshold values with the missing
marker while leaving every other value unchanged, and its missing count
is the number of pre-existing missing cells plus the number of
newly-marked ones. -/
theorem c10_clean_no_shrink (DataDF : List (Date × Val)) :
    (ReadDataCleanStep DataDF).1.map Prod.fst = DataDF.map Prod.fst ∧
    List.Forall₂ (fun p q => p.1 = q.1 ∧
        (vltB p.2 (Val.num 0) = true → q.2 = Val.nan) ∧
        (vltB p.2 (Val.num 0) = false → q.2 = p.2))
      DataDF (ReadDataCleanStep DataDF).1 ∧
    (ReadDataCleanStep DataDF).2 =
      DataDF.countP (fun p => isnaB p.2) + DataDF.countP (fun p => vltB p.2 (Val.num 0)) := by
  refine ⟨?_, ?_, ?_⟩
  · rw [ReadDataCleanStep, List.map_map]
    rfl
  · induction DataDF with
    | nil => exact List.Forall₂.nil
    | cons p t ih =>
      refine List.Forall₂.cons ⟨rfl, ?_, ?_⟩ ih
      · intro hlt
        show (if vltB p.2 (Val.num 0) then Val.nan else p.2) = Val.nan
        rw [if_pos hlt]
      · intro hlt
        show (if vltB p.2 (Val.num 0) then Val.nan else p.2) = p.2
        rw [if_neg (by rw [hlt]; exact Bool.false_ne_true)]
  · induction DataDF with
    | nil => rfl
    | cons p t ih =>
      show ((p.1, if vltB p.2 (Val.num 0) then Val.nan else p.2) ::
          t.map (fun p => (p.1, if vltB p.2 (Val.num 0) then Val.nan else p.2))).countP
            (fun p => isnaB p.2) = _
      rw [List.countP_cons, List.countP_cons, List.countP_cons]
      have hrec : (t.map (fun p => (p.1, if vltB p.2 (Val.num 0) then Val.nan else p.2))).countP
          (fun p => isnaB p.2) =
          t.countP (fun p => isnaB p.2) + t.countP (fun p => vltB p.2 (Val.num 0)) := ih
      rw [hrec]
      cases hp : p.2 with
      | nan => simp [vltB, isnaB]; omega
      | num q =>
        by_cases hq : q < 0
        · simp [vltB, isnaB, hq]; omega
        · simp [vltB, isnaB, hq]

theorem countP_vgtB_eq_filter_length (m : ℚ) (Qvalues : List Val) :
    Qvalues.countP (fun v => vgtB v (Val.num m)) =
      ((validValues Qvalues).filter (fun q => decide (m < q))).length := by
  induction Qvalues with
  | nil => rfl
  | cons x t ih =>
    cases x with
    | nan =>
      rw [List.countP_cons]
      have h0 : vgtB Val.nan (Val.num m) = false := rfl
      rw [h0]
      show t.countP (fun v => vgtB v (Val.num m)) + (if false = true then 1 else 0) =
        ((validValues t).filter (fun q => decide (m < q))).length
      simpa using ih
    | num q =>
      rw [List.countP_cons]
      show t.countP (fun v => vgtB v (Val.num m)) + (if decide (m < q) = true then 1 else 0) =
        ((q :: validValues t).filter (fun q => decide (m < q))).length
      rw [List.filter_cons]
      by_cases hq : m < q
      · simp [hq, ih]
      · simp [hq, ih]

theorem vdiv_num (a b : ℚ) :
    vdiv (Val.num a) (Val.num b) = if b = 0 then Val.nan else Val.num (a / b) := rfl

theorem sum_of_all_eq (vs : List ℚ) (c : ℚ) (h : ∀ q ∈ vs, q = c) :
    vs.sum = vs.length * c := by
  induction vs with
  | nil => simp
  | cons x t ih =>
    rw [List.sum_cons, h x (List.mem_cons_self _ _),
      ih (fun q hq => h q (List.mem_cons_of_mem _ hq)), List.length_cons]
    push_cast
    ring

/-- C6: for every period with at least one valid value, TqMean equals the
number of valid values strictly above the NaN-skipping mean divided by the
valid count, lies in [0, 1], and equals 0 whenever all valid values are
equal. -/
theorem c6_tqmean_bounds (Qvalues : List Val) (h : 0 < validCount Qvalues) :
    ∃ m : ℚ, nanmean Qvalues = Val.num m ∧
      CalcTqmean Qvalues =
        Val.num ((((validValues Qvalues).filter (fun q => decide (m < q))).length : ℚ) /
          (validCount Qvalues : ℚ)) ∧
      0 ≤ ((((validValues Qvalues).filter (fun q => decide (m < q))).length : ℚ) /
          (validCount Qvalues : ℚ)) ∧
      ((((validValues Qvalues).filter (fun q => decide (m < q))).length : ℚ) /
          (validCount Qvalues : ℚ)) ≤ 1 ∧
      (∀ c : ℚ, (∀ q ∈ validValues Qvalues, q = c) → CalcTqmean Qvalues = Val.num 0) := by
  have hne : validCount Qvalues ≠ 0 := Nat.pos_iff_ne_zero.mp h
  have hcast : ((validCount Qvalues : ℚ)) ≠ 0 := Nat.cast_ne_zero.mpr hne
  have hmean : nanmean Qvalues = Val.num (nansum Qvalues / (validCount Qvalues : ℚ)) := by
    unfold nanmean
    rw [if_neg hne]
  refine ⟨nansum Qvalues / (validCount Qvalues : ℚ), hmean, ?_, ?_, ?_, ?_⟩
  · unfold CalcTqmean
    rw [hmean, countP_vgtB_eq_filter_length, vdiv_num, if_neg hcast]
  · exact div_nonneg (Nat.cast_nonneg _) (Nat.cast_nonneg _)
  · rw [div_le_one (by positivity)]
    have hlen := List.length_filter_le (fun q => decide ((nansum Qvalues / (validCount Qvalues : ℚ)) < q))
      (validValues Qvalues)
    exact_mod_cast hlen
  · intro c hc
    have hsum : nansum Qvalues = (validCount Qvalues : ℚ) * c := by
      unfold nansum validCount
      exact sum_of_all_eq _ c hc
    have hm : nansum Qvalues / (validCount Qvalues : ℚ) = c := by
      rw [hsum, mul_comm, mul_div_assoc, div_self hcast, mul_one]
    have hfil : (validValues Qvalues).filter (fun q => decide (c < q)) = [] := by
      rw [List.filter_eq_nil_iff]
      intro q hq
      rw [hc q hq]
      simp
    unfold CalcTqmean
    rw [hmean, countP_vgtB_eq_filter_length, hm, hfil, vdiv_num, if_neg hcast]
    norm_num

theorem c6_witness : CalcTqmean [Val.num 2, Val.num 2] = Val.num 0 := by
  obtain ⟨m, _, _, _, _, h5⟩ := c6_tqmean_bounds [Val.num 2, Val.num 2] (by decide)
  refine h5 2 ?_
  intro q hq
  have : q ∈ [(2 : ℚ), 2] := hq
  simpa using this

/-- The rational path-length terms for a gap-free sequence. -/
def pathAbs : List ℚ → List ℚ
| a :: b :: t => |a - b| :: pathAbs (b :: t)
| _ => []

theorem pathDeltas_map_num (l : List ℚ) :
    pathDeltas (l.map Val.num) = (pathAbs l).map Val.num := by
  induction l with
  | nil => rfl
  | cons a t ih =>
    cases t with
    | nil => rfl
    | cons b t' =>
      show vabs (vsub (Val.num a) (Val.num b)) :: pathDeltas ((b :: t').map Val.num) =
        Val.num |a - b| :: (pathAbs (b :: t')).map Val.num
      rw [ih]
      rfl

theorem foldl_vadd_map_num (qs : List ℚ) (a : ℚ) :
    (qs.map Val.num).foldl vadd (Val.num a) = Val.num (a + qs.sum) := by
  induction qs generalizing a with
  | nil => simp
  | cons x t ih =>
    show (t.map Val.num).foldl vadd (vadd (Val.num a) (Val.num x)) = _
    rw [show vadd (Val.num a) (Val.num x) = Val.num (a + x) from rfl, ih]
    rw [List.sum_cons]
    ring_nf

theorem validValues_map_num (l : List ℚ) : validValues (l.map Val.num) = l := by
  induction l with
  | nil => rfl
  | cons x t ih =>
    show x :: validValues (t.map Val.num) = x :: t
    rw [ih]

theorem pathAbs_nonneg (l : List ℚ) : ∀ x ∈ pathAbs l, 0 ≤ x := by
  induction l with
  | nil => intro x hx; cases hx
  | cons a t ih =>
    cases t with
    | nil => intro x hx; cases hx
    | cons b t' =>
      intro x hx
      rcases List.mem_cons.mp hx with hx1 | hx2
      · rw [hx1]; exact abs_nonneg _
      · exact ih x hx2

theorem pathAbs_telescope (l : List ℚ) (hne : l ≠ []) (hchain : List.Chain' (· ≤ ·) l) :
    (pathAbs l).sum = l.getLast hne - l.head hne := by
  induction l with
  | nil => exact absurd rfl hne
  | cons a t ih =>
    cases t with
    | nil => simp [pathAbs]
    | cons b t' =>
      have hab : a ≤ b ∧ List.Chain' (· ≤ ·) (b :: t') := List.chain'_cons.mp hchain
      have hrec := ih (List.cons_ne_nil b t') hab.2
      show (|a - b| :: pathAbs (b :: t')).sum = _
      rw [List.sum_cons, hrec]
      have habs : |a - b| = b - a := by
        rw [abs_sub_comm]
        exact abs_of_nonneg (by linarith [hab.1])
      rw [habs, List.getLast_cons (List.cons_ne_nil b t')]
      show b - a + ((b :: t').getLast _ - b) = (b :: t').getLast _ - a
      ring

/-- C7: on a gap-free period of positive discharge values the R-B index is
a well-defined nonnegative number, and on a monotonically increasing
sequence it equals (last - first) / sum. -/
theorem c7_rbindex_nonneg (l : List ℚ) (hne : l ≠ []) (hpos : ∀ x ∈ l, 0 < x) :
    ∃ r : ℚ, CalcRBindex (l.map Val.num) = Val.num r ∧ 0 ≤ r ∧
      (List.Chain' (· ≤ ·) l → r = (l.getLast hne - l.head hne) / l.sum) := by
  have hsum : 0 < l.sum := List.sum_pos l hpos hne
  refine ⟨(pathAbs l).sum / l.sum, ?_, ?_, ?_⟩
  · unfold CalcRBindex
    rw [pathDeltas_map_num, foldl_vadd_map_num]
    rw [show nansum (l.map Val.num) = l.sum from by
      unfold nansum; rw [validValues_map_num]]
    rw [zero_add, vdiv_num, if_neg hsum.ne']
  · exact div_nonneg (List.sum_nonneg (pathAbs_nonneg l)) hsum.le
  · intro hchain
    rw [pathAbs_telescope l hne hchain]

theorem c7_witness :
    ∃ r : ℚ, CalcRBindex ([1, 2, 3].map Val.num) = Val.num r ∧ 0 ≤ r ∧
      (List.Chain' (· ≤ ·) [(1 : ℚ), 2, 3] →
        r = (([(1 : ℚ), 2, 3].getLast (by simp) - [(1 : ℚ), 2, 3].head (by simp)) /
          [(1 : ℚ), 2, 3].sum)) :=
  c7_rbindex_nonneg [1, 2, 3] (by simp) (by norm_num)

theorem dateLE_refl (a : Date) : dateLE a a = true := by
  simp [dateLE]

theorem pairwise_head_le (l : List (Date × Val))
    (hs : l.Pairwise (fun a b => dateLE a.1 b.1 = true)) (hne : l ≠ [])
    (p : Date × Val) (hp : p ∈ l) : dateLE ((l.head hne).1) p.1 = true := by
  cases l with
  | nil => exact absurd rfl hne
  | cons x t =>
    rcases List.mem_cons.mp hp with h1 | h2
    · rw [h1]; exact dateLE_refl _
    · exact List.rel_of_pairwise_cons hs h2

theorem pairwise_le_last (l : List (Date × Val))
    (hs : l.Pairwise (fun a b => dateLE a.1 b.1 = true)) (hne : l ≠ [])
    (p : Date × Val) (hp : p ∈ l) : dateLE p.1 ((l.getLast hne).1) = true := by
  induction l with
  | nil => exact absurd rfl hne
  | cons x t ih =>
    cases t with
    | nil =>
      have hpx : p = x := by simpa using hp
      rw [hpx]
      exact dateLE_refl _
    | cons y t' =>
      rw [List.getLast_cons (List.cons_ne_nil y t')]
      rcases List.mem_cons.mp hp with h1 | h2
      · rw [h1]
        exact List.rel_of_pairwise_cons hs (List.getLast_mem (List.cons_ne_nil y t'))
      · exact ih (List.Pairwise.of_cons hs) (List.cons_ne_nil y t') h2

/-- C8: clip retains exactly the rows whose date lies in the inclusive
range, so clipping a sorted series to its own full range reproduces the
identical table, with the missing count recomputed over the same rows. -/
theorem c8_clip_full_range (DataDF : List (Date × Val)) (hne : DataDF ≠ [])
    (hs : DataDF.Pairwise (fun a b => dateLE a.1 b.1 = true)) :
    ClipData DataDF ((DataDF.head hne).1) ((DataDF.getLast hne).1) =
      (DataDF, DataDF.countP (fun p => isnaB p.2)) := by
  have hf : DataDF.filter
      (fun p => dateLE ((DataDF.head hne).1) p.1 && dateLE p.1 ((DataDF.getLast hne).1)) =
      DataDF := by
    rw [List.filter_eq_self]
    intro p hp
    rw [Bool.and_eq_true]
    exact ⟨pairwise_head_le DataDF hs hne p hp, pairwise_le_last DataDF hs hne p hp⟩
  unfold ClipData
  rw [hf]

/-- Concrete sorted two-day series for the C8 witness. -/
def c8ex : List (Date × Val) := [(⟨2000, 1, 1⟩, Val.num 1), (⟨2000, 1, 2⟩, Val.nan)]

theorem c8_witness : ClipData c8ex ⟨2000, 1, 1⟩ ⟨2000, 1, 2⟩ = (c8ex, 1) := by
  have h := c8_clip_full_range c8ex (by decide) (by decide)
  simpa using h

/-- C9: the monthly-average table always has exactly twelve rows keyed by
calendar month numbers 1..12, however many years of month-rows are
supplied, and the row for month i+1 holds the per-column NaN-skipping
means over exactly the input rows of that calendar month. -/
theorem c9_monthly_avg_shape (MoDataDF : List (Date × List Val)) (ncols i : Nat)
    (hi : i < 12) :
    (GetMonthlyAverages MoDataDF ncols).length = 12 ∧
    (GetMonthlyAverages MoDataDF ncols).map Prod.fst =
      [1, 2, 3, 4, 5, 6, 7, 8, 9, 10, 11, 12] ∧
    (GetMonthlyAverages MoDataDF ncols).getD i (0, []) =
      (i + 1, colMeans ((MoDataDF.filter (fun p => p.1.month == i + 1)).map Prod.snd) ncols) := by
  refine ⟨?_, ?_, ?_⟩
  · simp [GetMonthlyAverages]
  · rfl
  · interval_cases i <;> rfl

theorem c9_witness :
    (GetMonthlyAverages [(⟨2000, 3, 31⟩, [Val.num 4])] 1).length = 12 ∧
    (GetMonthlyAverages [(⟨2000, 3, 31⟩, [Val.num 4])] 1).map Prod.fst =
      [1, 2, 3, 4, 5, 6, 7, 8, 9, 10, 11, 12] ∧
    (GetMonthlyAverages [(⟨2000, 3, 31⟩, [Val.num 4])] 1).getD 2 (0, []) =
      (3, colMeans (([((⟨2000, 3, 31⟩ : Date), [Val.num 4])].filter
        (fun p => p.1.month == 3)).map Prod.snd) 1) :=
  c9_monthly_avg_shape [(⟨2000, 3, 31⟩, [Val.num 4])] 1 2 (by decide)

theorem foldl_vminAcc_num_exists (t : List Val) (a : ℚ) :
    ∃ r, t.foldl vminAcc (Val.num a) = Val.num r ∧ r ≤ a := by
  induction t generalizing a with
  | nil => exact ⟨a, rfl, le_refl a⟩
  | cons x t ih =>
    cases x with
    | nan =>
      show ∃ r, t.foldl vminAcc (Val.num a) = Val.num r ∧ r ≤ a
      exact ih a
    | num b =>
      show ∃ r, t.foldl vminAcc (Val.num (min a b)) = Val.num r ∧ r ≤ a
      obtain ⟨r, hr, hle⟩ := ih (min a b)
      exact ⟨r, hr, le_trans hle (min_le_left a b)⟩

theorem foldl_vminAcc_exists_of_mem (l : List Val) (acc : Val) (q : ℚ)
    (h : Val.num q ∈ l) : ∃ r, l.foldl vminAcc acc = Val.num r := by
  induction l generalizing acc with
  | nil => cases h
  | cons x t ih =>
    rcases List.mem_cons.mp h with h1 | h2
    · subst h1
      cases acc with
      | nan =>
        show ∃ r, t.foldl vminAcc (Val.num q) = Val.num r
        obtain ⟨r, hr, _⟩ := foldl_vminAcc_num_exists t q
        exact ⟨r, hr⟩
      | num a =>
        show ∃ r, t.foldl vminAcc (Val.num (min a q)) = Val.num r
        obtain ⟨r, hr, _⟩ := foldl_vminAcc_num_exists t (min a q)
        exact ⟨r, hr⟩
    · exact ih (vminAcc acc x) h2

theorem foldl_vminAcc_le_mem (l : List Val) (acc : Val) (q r : ℚ)
    (hq : Val.num q ∈ l) (hr : l.foldl vminAcc acc = Val.num r) : r ≤ q := by
  induction l generalizing acc with
  | nil => cases hq
  | cons x t ih =>
    rcases List.mem_cons.mp hq with h1 | h2
    · subst h1
      cases acc with
      | nan =>
        have hstep : (Val.num q :: t).foldl vminAcc Val.nan = t.foldl vminAcc (Val.num q) := rfl
        rw [hstep] at hr
        obtain ⟨r', hr', hle⟩ := foldl_vminAcc_num_exists t q
        rw [hr'] at hr
        cases hr
        exact hle
      | num a =>
        have hstep : (Val.num q :: t).foldl vminAcc (Val.num a) =
          t.foldl vminAcc (Val.num (min a q)) := rfl
        rw [hstep] at hr
        obtain ⟨r', hr', hle⟩ := foldl_vminAcc_num_exists t (min a q)
        rw [hr'] at hr
        cases hr
        exact le_trans hle (min_le_right a q)
    · exact ih (vminAcc acc x) h2 hr

theorem foldl_vminAcc_lower (l : List Val) (acc : Val) (m r : ℚ)
    (hmem : ∀ q : ℚ, Val.num q ∈ l → m ≤ q)
    (hacc : acc = Val.nan ∨ ∃ a : ℚ, acc = Val.num a ∧ m ≤ a)
    (hr : l.foldl vminAcc acc = Val.num r) : m ≤ r := by
  induction l generalizing acc with
  | nil =>
    rcases hacc with h1 | ⟨a, ha, hma⟩
    · rw [h1] at hr; cases hr
    · rw [ha] at hr; cases hr; exact hma
  | cons x t ih =>
    refine ih (vminAcc acc x) (fun q hq => hmem q (List.mem_cons_of_mem _ hq)) ?_ hr
    cases x with
    | nan =>
      rcases hacc with h1 | ⟨a, ha, hma⟩
      · left; rw [h1]; rfl
      · right; exact ⟨a, by rw [ha]; rfl, hma⟩
    | num b =>
      have hmb : m ≤ b := hmem b (List.mem_cons_self _ _)
      rcases hacc with h1 | ⟨a, ha, hma⟩
      · right; exact ⟨b, by rw [h1]; rfl, hmb⟩
      · right; exact ⟨min a b, by rw [ha]; rfl, le_min hma hmb⟩

theorem mem_validValues (l : List Val) (q : ℚ) :
    q ∈ validValues l ↔ Val.num q ∈ l := by
  induction l with
  | nil => simp [validValues]
  | cons x t ih =>
    cases x with
    | nan =>
      show q ∈ validValues t ↔ _
      rw [ih]
      constructor
      · exact fun h => List.mem_cons_of_mem _ h
      · intro h
        rcases List.mem_cons.mp h with h1 | h2
        · cases h1
        · exact h2
    | num b =>
      show q ∈ b :: validValues t ↔ _
      constructor
      · intro h
        rcases List.mem_cons.mp h with h1 | h2
        · rw [h1]; exact List.mem_cons_self _ _
        · exact List.mem_cons_of_mem _ (ih.mp h2)
      · intro h
        rcases List.mem_cons.mp h with h1 | h2
        · injection h1 with h1
          rw [h1]; exact List.mem_cons_self _ _
        · exact List.mem_cons_of_mem _ (ih.mpr h2)

theorem validValues_length_of_no_nan (l : List Val) (h : ∀ v ∈ l, v ≠ Val.nan) :
    (validValues l).length = l.length := by
  induction l with
  | nil => rfl
  | cons x t ih =>
    cases x with
    | nan => exact absurd rfl (h _ (List.mem_cons_self _ _))
    | num b =>
      show (b :: validValues t).length = t.length + 1
      rw [List.length_cons, ih (fun v hv => h v (List.mem_cons_of_mem _ hv))]

theorem length_mul_le_sum (vs : List ℚ) (m : ℚ) (h : ∀ q ∈ vs, m ≤ q) :
    (vs.length : ℚ) * m ≤ vs.sum := by
  induction vs with
  | nil => simp
  | cons x t ih =>
    rw [List.sum_cons, List.length_cons]
    push_cast
    have h1 := h x (List.mem_cons_self _ _)
    have h2 := ih (fun q hq => h q (List.mem_cons_of_mem _ hq))
    nlinarith

theorem window_mem (Q : List Val) (j : Nat) (v : Val)
    (h : v ∈ (Q.drop j).take 7) : v ∈ Q :=
  (List.drop_sublist j Q).subset ((List.take_sublist 7 (Q.drop j)).subset h)

theorem rollingMean7_num_entry (Q : List Val) (e : ℚ)
    (h : Val.num e ∈ rollingMean7 Q) :
    ∃ j, j + 7 ≤ Q.length ∧ ((Q.drop j).take 7).any isnaB = false ∧
      e = nansum ((Q.drop j).take 7) / 7 := by
  obtain ⟨i, hir, heq⟩ := List.mem_map.mp h
  have hilt : i < Q.length := List.mem_range.mp hir
  by_cases h1 : i + 1 < 7
  · rw [if_pos h1] at heq; cases heq
  · rw [if_neg h1] at heq
    by_cases h2 : ((Q.drop (i + 1 - 7)).take 7).any isnaB = true
    · rw [if_pos h2] at heq; cases heq
    · rw [if_neg h2] at heq
      injection heq with heq
      refine ⟨i + 1 - 7, by omega, by simpa using h2, heq.symm⟩

theorem rollingMean7_has_entry (Q : List Val) (j : Nat) (hj : j + 7 ≤ Q.length)
    (hv : ((Q.drop j).take 7).any isnaB = false) :
    Val.num (nansum ((Q.drop j).take 7) / 7) ∈ rollingMean7 Q := by
  refine List.mem_map.mpr ⟨j + 6, List.mem_range.mpr (by omega), ?_⟩
  rw [if_neg (by omega : ¬(j + 6 + 1 < 7))]
  rw [show j + 6 + 1 - 7 = j from by omega]
  rw [if_neg (by rw [hv]; exact Bool.false_ne_true)]

/-- C3 (amended): whenever the period contains a window of seven
consecutive valid daily values, the 7Q result is a number that is greater
than or equal to the NaN-skipping minimum single-day discharge of the
period (a 7-day average can never drop below the smallest daily value). -/
theorem c3_sevendaylow_ge_min (Qvalues : List Val)
    (h : ∃ j, j + 7 ≤ Qvalues.length ∧ ∀ v ∈ (Qvalues.drop j).take 7, v ≠ Val.nan) :
    ∃ q m : ℚ, Calc7Q Qvalues = Val.num q ∧ nanmin Qvalues = Val.num m ∧ m ≤ q := by
  obtain ⟨j, hj, hvalid⟩ := h
  have hany : ((Qvalues.drop j).take 7).any isnaB = false := by
    rw [List.any_eq_false]
    intro v hv
    cases v with
    | nan => exact absurd rfl (hvalid _ hv)
    | num b => exact Bool.false_ne_true
  have hlen7 : ((Qvalues.drop j).take 7).length = 7 := by
    rw [List.length_take, List.length_drop]
    omega
  have hWne : (Qvalues.drop j).take 7 ≠ [] := by
    intro hcon
    rw [hcon] at hlen7
    cases hlen7
  have hw : ((Qvalues.drop j).take 7).head hWne ∈ (Qvalues.drop j).take 7 :=
    List.head_mem hWne
  obtain ⟨q0, hq0⟩ : ∃ q0, ((Qvalues.drop j).take 7).head hWne = Val.num q0 := by
    cases hh : ((Qvalues.drop j).take 7).head hWne with
    | nan => exact absurd (hh ▸ rfl) (hvalid _ (hh ▸ hw))
    | num b => exact ⟨b, rfl⟩
  have hq0Q : Val.num q0 ∈ Qvalues := window_mem Qvalues j _ (hq0 ▸ hw)
  obtain ⟨m, hm⟩ := foldl_vminAcc_exists_of_mem Qvalues Val.nan q0 hq0Q
  have hmle : ∀ q : ℚ, Val.num q ∈ Qvalues → m ≤ q :=
    fun q hq => foldl_vminAcc_le_mem Qvalues Val.nan q m hq hm
  have hentry := rollingMean7_has_entry Qvalues j hj hany
  obtain ⟨q, hq⟩ := foldl_vminAcc_exists_of_mem (rollingMean7 Qvalues) Val.nan _ hentry
  refine ⟨q, m, hq, hm, ?_⟩
  have hbound : ∀ e : ℚ, Val.num e ∈ rollingMean7 Qvalues → m ≤ e := by
    intro e he
    obtain ⟨j', hj', hany', heq⟩ := rollingMean7_num_entry Qvalues e he
    have hno : ∀ v ∈ (Qvalues.drop j').take 7, v ≠ Val.nan := by
      intro v hv hcon
      have := (List.any_eq_false.mp hany') v hv
      rw [hcon] at this
      exact this rfl
    have hW'len : (validValues ((Qvalues.drop j').take 7)).length =
        ((Qvalues.drop j').take 7).length := validValues_length_of_no_nan _ hno
    have hlen7' : ((Qvalues.drop j').take 7).length = 7 := by
      rw [List.length_take, List.length_drop]
      omega
    have hallge : ∀ r ∈ validValues ((Qvalues.drop j').take 7), m ≤ r := by
      intro r hr
      exact hmle r (window_mem Qvalues j' _ ((mem_validValues _ r).mp hr))
    have hsum := length_mul_le_sum _ m hallge
    rw [hW'len, hlen7'] at hsum
    rw [heq]
    unfold nansum
    rw [le_div_iff₀ (by norm_num : (0 : ℚ) < 7)]
    push_cast at hsum
    linarith
  exact foldl_vminAcc_lower (rollingMean7 Qvalues) Val.nan m q hbound (Or.inl rfl) hq

/-- Concrete eight-day series for the C3 counterexample and witness. -/
def c3ex : List Val := [Val.num 1, Val.num 8, Val.num 8, Val.num 8, Val.num 8, Val.num 8,
  Val.num 8, Val.num 8]

/-- C3 counterexample: an eight-day period of valid values on which the 7Q
result (49/7 = 7) is NOT less than or equal to the minimum single-day
value (1). -/
theorem c3_counterexample :
    7 ≤ validCount c3ex ∧ vleB (Calc7Q c3ex) (nanmin c3ex) = false := by
  constructor
  · decide
  · norm_num [Calc7Q, c3ex, rollingMean7, nansum, validValues, isnaB, nanmin, vminAcc,
      min_def, List.range_succ, vleB]

theorem c3_witness :
    ∃ q m : ℚ, Calc7Q c3ex = Val.num q ∧ nanmin c3ex = Val.num m ∧ m ≤ q :=
  c3_sevendaylow_ge_min c3ex ⟨0, by decide, by decide⟩
